import Mathlib

/-!
Verification of the `headers-polyfill` header container (`src/Headers.ts`).

The embedding below translates the TypeScript class `HeadersPolyfill` into Lean:

* the private field `headers : Record<string, string>` becomes an association
  list `List (String × String)` of own properties in insertion order, together
  with an `objectKeys` function reproducing the ECMAScript own-property
  enumeration order (canonical array-index keys first, in ascending numeric
  order, then the remaining string keys in insertion order);
* the private field `names : Map<string, string>` becomes an association list
  with JavaScript `Map` semantics (`set` keeps the position of an existing key);
* property reads on the plain object `headers` follow the prototype chain: a
  read of a missing key yields `undefined` except for the two all-lowercase
  `Object.prototype` members reachable through normalized header names,
  `"constructor"` (a function, truthy) and `"__proto__"` (an object, truthy);
  an assignment `headers["__proto__"] = string` hits the inherited `__proto__`
  accessor and creates no own property;
* `x || null` in `get` is modelled by mapping the empty string (the only falsy
  string) and `undefined` to JavaScript `null`;
* the mutators return the (possibly unchanged) state next to an `Except`
  result so that the state at the moment an exception is raised is visible;
* the helpers `normalizeHeaderName` / `normalizeHeaderValue` live in
  `src/utils/`, which is not part of the sources; they are modelled from the
  specification (§4.2), as marked on their doc comments.
-/

/-- The two error kinds of §7: `InvalidHeaderName` and `InvalidHeaderValue`. -/
inductive HeaderError where
  | invalidHeaderName
  | invalidHeaderValue
deriving DecidableEq, Repr

/-- Decidable equality on `Except`, so that concrete runs of the embedded
operations can be checked by `decide`. -/
def exceptDecEq {ε α : Type} [DecidableEq ε] [DecidableEq α] :
    (a b : Except ε α) → Decidable (a = b)
  | .ok a, .ok b =>
    if h : a = b then .isTrue (by rw [h])
    else .isFalse (by intro hc; cases hc; exact h rfl)
  | .ok _, .error _ => .isFalse (by intro hc; cases hc)
  | .error _, .ok _ => .isFalse (by intro hc; cases hc)
  | .error a, .error b =>
    if h : a = b then .isTrue (by rw [h])
    else .isFalse (by intro hc; cases hc; exact h rfl)

instance {ε α : Type} [DecidableEq ε] [DecidableEq α] : DecidableEq (Except ε α) :=
  exceptDecEq

/-- Whitespace stripped by header-name/value trimming: space, tab, CR, LF. -/
def isHttpWs (c : Char) : Bool :=
  c.toNat = 32 || c.toNat = 9 || c.toNat = 13 || c.toNat = 10

/-- Line-break characters (CR, LF), folded into single spaces in values. -/
def isLineBreak (c : Char) : Bool :=
  c.toNat = 13 || c.toNat = 10

/-- The HTTP-disallowed separators listed in §4.2:
`: ( ) < > @ , ; \ " / [ ] ? =` and the two curly braces. -/
def isNameSeparator (c : Char) : Bool :=
  c.toNat = 58 || c.toNat = 40 || c.toNat = 41 || c.toNat = 60 || c.toNat = 62 ||
  c.toNat = 64 || c.toNat = 44 || c.toNat = 59 || c.toNat = 92 || c.toNat = 34 ||
  c.toNat = 47 || c.toNat = 91 || c.toNat = 93 || c.toNat = 63 || c.toNat = 61 ||
  c.toNat = 123 || c.toNat = 125

/-- A character a header name may not contain: control characters,
whitespace, or an HTTP separator (§4.2). -/
def disallowedNameChar (c : Char) : Bool :=
  c.toNat < 32 || c.toNat = 127 || isHttpWs c || isNameSeparator c

/-- A control character disallowed inside a header value (§4.2); horizontal
tab is ordinary folded whitespace and is allowed. -/
def disallowedValueChar (c : Char) : Bool :=
  (decide (c.toNat < 32) && !(c.toNat = 9 : Bool)) || c.toNat = 127

/-- Strip leading and trailing whitespace from a character list. -/
def trimWs (l : List Char) : List Char :=
  ((l.dropWhile isHttpWs).reverse.dropWhile isHttpWs).reverse

/-- Collapse every maximal run of line-break characters into a single space;
the flag records whether the previous character was part of such a run. -/
def collapseLB : Bool → List Char → List Char
  | _, [] => []
  | inRun, c :: rest =>
    if isLineBreak c then
      if inRun then collapseLB true rest else ' ' :: collapseLB true rest
    else c :: collapseLB false rest

/-- Modelled from the spec: `src/utils/normalizeHeaderName.ts` is imported by
`Headers.ts` but absent from the sources.  §4.2: fails with
`InvalidHeaderName` if the name is empty after trimming or contains a
control character, whitespace, or an HTTP separator; otherwise returns the
trimmed, lower-cased form. -/
def normalizeHeaderName (name : String) : Except HeaderError String :=
  if (trimWs name.toList).isEmpty then .error .invalidHeaderName
  else if (trimWs name.toList).any disallowedNameChar then .error .invalidHeaderName
  else .ok (String.mk ((trimWs name.toList).map Char.toLower))

/-- Modelled from the spec: `src/utils/normalizeHeaderValue.ts` is imported by
`Headers.ts` but absent from the sources.  §4.2: strips leading/trailing
whitespace, collapses internal line-break sequences into single spaces, and
fails with `InvalidHeaderValue` if the result still contains a disallowed
control character. -/
def normalizeHeaderValue (value : String) : Except HeaderError String :=
  if (collapseLB false (trimWs value.toList)).any disallowedValueChar then
    .error .invalidHeaderValue
  else .ok (String.mk (collapseLB false (trimWs value.toList)))

/-- Association-list lookup, keyed on the first component. -/
def lookupA {α : Type} : List (String × α) → String → Option α
  | [], _ => none
  | (k', v) :: t, k => if k' = k then some v else lookupA t k

/-- Association-list update: an existing key keeps its position (JavaScript
object assignment and `Map.set` semantics); a new key goes to the end. -/
def setA {α : Type} : List (String × α) → String → α → List (String × α)
  | [], k, v => [(k, v)]
  | (k', v') :: t, k, v => if k' = k then (k, v) :: t else (k', v') :: setA t k v

/-- Association-list removal (JavaScript `delete` / `Map.delete`). -/
def deleteA {α : Type} (l : List (String × α)) (k : String) : List (String × α) :=
  l.filter (fun p => p.1 != k)

/-- The keys of an association list, in storage order. -/
def keysA {α : Type} (l : List (String × α)) : List String :=
  l.map Prod.fst

/-- Is `c` an ASCII digit? -/
def isDigitChar (c : Char) : Bool :=
  decide (48 ≤ c.toNat) && decide (c.toNat ≤ 57)

/-- Numeric value of a digit string (most significant digit first). -/
def digitsToNat : List Char → Nat → Nat
  | [], acc => acc
  | c :: t, acc => digitsToNat t (acc * 10 + (c.toNat - 48))

/-- Numeric value of a string of ASCII digits. -/
def strNum (s : String) : Nat :=
  digitsToNat s.toList 0

/-- Is `s` a canonical array-index property key in the ECMAScript sense: a
digit string with no leading zero (except `"0"` itself) whose numeric value
is below `2 ^ 32 - 1`?  Such keys are enumerated before all other string
keys, in ascending numeric order. -/
def isArrayIndexStr (s : String) : Bool :=
  match s.toList with
  | [] => false
  | [c] => isDigitChar c
  | c :: rest =>
    isDigitChar c && !(c.toNat = 48 : Bool) && rest.all isDigitChar &&
      decide (strNum s < 4294967295)

/-- Insert a key into a list sorted by ascending `strNum`. -/
def insertByNum (s : String) : List String → List String
  | [] => [s]
  | a :: t => if strNum s ≤ strNum a then s :: a :: t else a :: insertByNum s t

/-- Sort keys by ascending numeric value (insertion sort). -/
def sortByNum (l : List String) : List String :=
  l.foldr insertByNum []

/-- `Object.keys` on a plain object: canonical array-index keys first in
ascending numeric order, then the remaining keys in insertion order. -/
def objectKeys {α : Type} (l : List (String × α)) : List String :=
  sortByNum ((l.map Prod.fst).filter isArrayIndexStr) ++
    (l.map Prod.fst).filter (fun k => !isArrayIndexStr k)

/-- A value produced by reading a property of the plain `headers` object (or
by `get`, which turns falsy reads into `null`): an own string property, the
JavaScript `null`, or one of the two inherited `Object.prototype` members
reachable through an all-lowercase key (`constructor`, `__proto__`). -/
inductive JsVal where
  | str (s : String)
  | jsNull
  | protoFn
  | protoObj
deriving DecidableEq, Repr

/-- JavaScript template-literal rendering of such a value, as used by
`append`; the inherited-member renderings are engine specific (V8 shown) and
are never reached by `append`, which consults `get` only after `has` has
reported an own property. -/
def jsStr : JsVal → String
  | .str s => s
  | .jsNull => "null"
  | .protoFn => "function Object() \x7b [native code] \x7d"
  | .protoObj => "[object Object]"

/-- Assignment `headers[k] = v` on the plain object: writing `"__proto__"`
hits the inherited accessor (a string is neither object nor `null`) and
creates no own property; any other key is an ordinary data-property write. -/
def recordSet (l : List (String × String)) (k v : String) : List (String × String) :=
  if k = "__proto__" then l else setA l k v

/-- The state of a `HeadersPolyfill` instance: the two private fields. -/
structure HeadersPolyfill where
  headers : List (String × String)
  names : List (String × String)
deriving DecidableEq, Repr

/-- The state right after `new HeadersPolyfill()` with no initializer. -/
def emptyHeaders : HeadersPolyfill := ⟨[], []⟩

namespace HeadersPolyfill

/-- `get(name)`: `this.headers[normalizeHeaderName(name)] || null`. -/
def get (m : HeadersPolyfill) (name : String) : Except HeaderError JsVal :=
  (normalizeHeaderName name).map (fun k =>
    match lookupA m.headers k with
    | some v => if v = "" then .jsNull else .str v
    | none =>
      if k = "constructor" then .protoFn
      else if k = "__proto__" then .protoObj
      else .jsNull)

/-- `has(name)`: `this.headers.hasOwnProperty(normalizeHeaderName(name))`. -/
def has (m : HeadersPolyfill) (name : String) : Except HeaderError Bool :=
  (normalizeHeaderName name).map (fun k => (lookupA m.headers k).isSome)

/-- `set(name, value)`: normalize the name, then assign the normalized value
and record the raw spelling.  The pair returned is (result, state at return
or at the uncaught exception). -/
def set (m : HeadersPolyfill) (name value : String) :
    Except HeaderError Unit × HeadersPolyfill :=
  match normalizeHeaderName name with
  | .error e => (.error e, m)
  | .ok normalizedName =>
    match normalizeHeaderValue value with
    | .error e => (.error e, m)
    | .ok nv =>
      (.ok (), { headers := recordSet m.headers normalizedName nv,
                 names := setA m.names normalizedName name })

/-- `append(name, value)`: resolve the value against the existing entry
(template-literal concatenation with `", "`), then delegate to `set` with the
original raw `name`. -/
def append (m : HeadersPolyfill) (name value : String) :
    Except HeaderError Unit × HeadersPolyfill :=
  match normalizeHeaderName name with
  | .error e => (.error e, m)
  | .ok normalizedName =>
    match has m normalizedName with
    | .error e => (.error e, m)
    | .ok b =>
      if b then
        match get m normalizedName with
        | .error e => (.error e, m)
        | .ok v => set m name (jsStr v ++ ", " ++ value)
      else set m name value

/-- `delete(name)`: return early unless `has(name)`; otherwise remove the key
from both fields. -/
def delete (m : HeadersPolyfill) (name : String) :
    Except HeaderError Unit × HeadersPolyfill :=
  match has m name with
  | .error e => (.error e, m)
  | .ok false => (.ok (), m)
  | .ok true =>
    match normalizeHeaderName name with
    | .error e => (.error e, m)
    | .ok normalizedName =>
      (.ok (), { headers := deleteA m.headers normalizedName,
                 names := deleteA m.names normalizedName })

/-- The sequence produced by `keys()`: `Object.keys(this.headers)`. -/
def keysList (m : HeadersPolyfill) : List String :=
  objectKeys m.headers

/-- The sequence produced by `entries()`: for each enumerated key, the pair
`[name, this.get(name)]`. -/
def entriesList (m : HeadersPolyfill) : Except HeaderError (List (String × JsVal)) :=
  (objectKeys m.headers).mapM (fun k => (get m k).map (fun v => (k, v)))

/-- The sequence produced by `values()`: `Object.values(this.headers)`. -/
def valuesList (m : HeadersPolyfill) : List String :=
  (objectKeys m.headers).filterMap (lookupA m.headers)

/-- Assignment into the fresh `rawHeaders` object of `raw()` (same plain
object semantics as `recordSet`, with an arbitrary value type). -/
def rawSet (l : List (String × JsVal)) (k : String) (v : JsVal) : List (String × JsVal) :=
  if k = "__proto__" then l else setA l k v

/-- `Map.get` rendered as a property key: a missing key gives `undefined`,
which stringifies to `"undefined"` when used as an object key. -/
def jsKey : Option String → String
  | some s => s
  | none => "undefined"

/-- `raw()`: rebuild a fresh object keyed by the recorded raw spellings. -/
def raw (m : HeadersPolyfill) : Except HeaderError (List (String × JsVal)) :=
  (entriesList m).map (fun es =>
    es.foldl (fun acc p => rawSet acc (jsKey (lookupA m.names p.1)) p.2) [])

end HeadersPolyfill

/-- A value in an initializer entry: a single string or a sequence of
strings (the latter joined with `", "` before appending). -/
inductive ValueInit where
  | str (s : String)
  | list (l : List String)

/-- `Array.isArray(value) ? value.join(', ') : value`. -/
def joinVal : ValueInit → String
  | .str s => s
  | .list l => String.intercalate ", " l

/-- The four accepted initializer shapes of §4.1.  A header-bag-like object
is given by its iteration sequence of (name, value) pairs; a plain record by
its own enumerable properties. -/
inductive HeadersInit where
  | headersLike (entries : List (String × String))
  | pairList (entries : List (String × ValueInit))
  | record (props : List (String × ValueInit))
  | absent

/-- Run `this.append(n, v)` for each pair in order, stopping at the first
uncaught exception (which the constructor propagates). -/
def appendAll (m : HeadersPolyfill) :
    List (String × String) → Except HeaderError HeadersPolyfill
  | [] => .ok m
  | (n, v) :: rest =>
    match m.append n v with
    | (.ok _, m') => appendAll m' rest
    | (.error e, _) => .error e

/-- Own enumerable properties of a plain object, as (key, value) pairs in
`Object.getOwnPropertyNames` order. -/
def objectEntries {α : Type} (l : List (String × α)) : List (String × α) :=
  (objectKeys l).filterMap (fun k => (lookupA l k).map (fun v => (k, v)))

/-- The constructor: every recognized initializer shape is funnelled through
`append`, starting from the empty state. -/
def construct : HeadersInit → Except HeaderError HeadersPolyfill
  | .headersLike es => appendAll emptyHeaders es
  | .pairList es => appendAll emptyHeaders (es.map (fun p => (p.1, joinVal p.2)))
  | .record ps =>
    appendAll emptyHeaders ((objectEntries ps).map (fun p => (p.1, joinVal p.2)))
  | .absent => .ok emptyHeaders

/-- Follows the words of the construction-equivalence claim: construct an
empty map, then call `append(name, value)` for each pair in list order. -/
def sequentialAppends (ps : List (String × String)) :
    Except HeaderError HeadersPolyfill :=
  ps.foldlM (fun m p =>
    match m.append p.1 p.2 with
    | (.ok _, m') => .ok m'
    | (.error e, _) => .error e) emptyHeaders

/-- One mutating call in a `set`/`append` call sequence. -/
inductive HOp where
  | setOp (name value : String)
  | appendOp (name value : String)

/-- The raw header name an operation supplies. -/
def HOp.opName : HOp → String
  | .setOp n _ => n
  | .appendOp n _ => n

/-- Execute one operation, propagating an uncaught exception. -/
def stepOp (m : HeadersPolyfill) : HOp → Except HeaderError HeadersPolyfill
  | .setOp n v =>
    match m.set n v with
    | (.ok _, m') => .ok m'
    | (.error e, _) => .error e
  | .appendOp n v =>
    match m.append n v with
    | (.ok _, m') => .ok m'
    | (.error e, _) => .error e

/-- Execute a call sequence left to right. -/
def applyOps (m : HeadersPolyfill) (ops : List HOp) :
    Except HeaderError HeadersPolyfill :=
  ops.foldlM stepOp m

/-- The states a `HeadersPolyfill` can be in: built by the constructor and
then mutated by any sequence of successful `set`/`append`/`delete` calls. -/
inductive Reachable : HeadersPolyfill → Prop
  | constructed (i : HeadersInit) (m : HeadersPolyfill) :
      construct i = .ok m → Reachable m
  | setStep (m : HeadersPolyfill) (name value : String) (m' : HeadersPolyfill) :
      Reachable m → m.set name value = (.ok (), m') → Reachable m'
  | appendStep (m : HeadersPolyfill) (name value : String) (m' : HeadersPolyfill) :
      Reachable m → m.append name value = (.ok (), m') → Reachable m'
  | deleteStep (m : HeadersPolyfill) (name : String) (m' : HeadersPolyfill) :
      Reachable m → m.delete name = (.ok (), m') → Reachable m'

/-- The value `append` resolves before delegating to `set`: the raw new value
if the normalized key is absent, otherwise the `get`-reported existing value
(`"null"` when the stored value is the empty string) joined with `", "`. -/
def resolveValue (m : HeadersPolyfill) (k v : String) : String :=
  match lookupA m.headers k with
  | some s => (if s = "" then "null" else s) ++ ", " ++ v
  | none => v

/-- Structural invariants of every reachable state: the two fields are in
lockstep away from the unwritable key `"__proto__"`, every recorded raw name
normalizes to its key, every stored key is a normalization fixed point, and
every stored value consists of characters that value normalization accepts. -/
structure WF (m : HeadersPolyfill) : Prop where
  keys_eq : ∀ k, k ∈ keysA m.headers ↔ (k ∈ keysA m.names ∧ k ≠ "__proto__")
  names_norm : ∀ p ∈ m.names, normalizeHeaderName p.2 = .ok p.1
  header_keys_norm : ∀ p ∈ m.headers, normalizeHeaderName p.1 = .ok p.1
  stored_ok : ∀ p ∈ m.headers, ∀ c ∈ p.2.toList, disallowedValueChar c = false

/-- Does this `Except` carry a success? -/
def isOkE {α : Type} : Except HeaderError α → Bool
  | .ok _ => true
  | .error _ => false

/-- Do both components of an initializer entry pass normalization? -/
def validPair (p : String × String) : Bool :=
  isOkE (normalizeHeaderName p.1) && isOkE (normalizeHeaderValue p.2)

/-- Does every entry of the initializer pass normalization (values joined
first, as the constructor does)? -/
def validInit : HeadersInit → Bool
  | .headersLike es => es.all validPair
  | .pairList es => es.all (fun p => validPair (p.1, joinVal p.2))
  | .record ps => ps.all (fun p => validPair (p.1, joinVal p.2))
  | .absent => true

/-! ### Character-level lemmas -/

theorem toNat_ofNat_small {n : Nat} (h : n < 55296) : (Char.ofNat n).toNat = n := by
  have hv : n.isValidChar := Or.inl h
  simp only [Char.ofNat, dif_pos hv, Char.ofNatAux, Char.toNat, UInt32.toNat]
  simp

theorem toLower_eq_of_not_upper {c : Char}
    (h : ¬(65 ≤ c.toNat ∧ c.toNat ≤ 90)) : Char.toLower c = c := by
  simp only [Char.toLower]
  rw [if_neg]
  intro hc
  exact h ⟨by exact_mod_cast hc.1, by exact_mod_cast hc.2⟩

theorem toLower_toNat_of_upper {c : Char}
    (h : 65 ≤ c.toNat ∧ c.toNat ≤ 90) : (Char.toLower c).toNat = c.toNat + 32 := by
  simp only [Char.toLower]
  rw [if_pos]
  · exact toNat_ofNat_small (by omega)
  · exact ⟨by exact_mod_cast h.1, by exact_mod_cast h.2⟩

theorem toLower_idem (c : Char) : Char.toLower (Char.toLower c) = Char.toLower c := by
  by_cases h : 65 ≤ c.toNat ∧ c.toNat ≤ 90
  · have h1 := toLower_toNat_of_upper h
    exact toLower_eq_of_not_upper (by omega)
  · rw [toLower_eq_of_not_upper h, toLower_eq_of_not_upper h]

theorem isHttpWs_toLower (c : Char) : isHttpWs (Char.toLower c) = isHttpWs c := by
  by_cases h : 65 ≤ c.toNat ∧ c.toNat ≤ 90
  · have h1 := toLower_toNat_of_upper h
    have e1 : isHttpWs (Char.toLower c) = false := by
      simp only [isHttpWs, h1, Bool.or_eq_false_iff, decide_eq_false_iff_not]
      omega
    have e2 : isHttpWs c = false := by
      simp only [isHttpWs, Bool.or_eq_false_iff, decide_eq_false_iff_not]
      omega
    rw [e1, e2]
  · rw [toLower_eq_of_not_upper h]

theorem disallowedNameChar_toLower {c : Char} (h : disallowedNameChar c = false) :
    disallowedNameChar (Char.toLower c) = false := by
  by_cases hu : 65 ≤ c.toNat ∧ c.toNat ≤ 90
  · have h1 := toLower_toNat_of_upper hu
    simp only [disallowedNameChar, isHttpWs, isNameSeparator, h1, Bool.or_eq_false_iff,
      decide_eq_false_iff_not] at h ⊢
    omega
  · rwa [toLower_eq_of_not_upper hu]

/-! ### Trim and collapse lemmas -/

theorem dropWhile_eq_self_of_none {p : Char → Bool} {l : List Char}
    (h : ∀ c ∈ l, p c = false) : l.dropWhile p = l := by
  cases l with
  | nil => rfl
  | cons a t => simp [List.dropWhile_cons, h a (by simp)]

theorem trimWs_eq_self {l : List Char} (h : ∀ c ∈ l, isHttpWs c = false) :
    trimWs l = l := by
  unfold trimWs
  rw [dropWhile_eq_self_of_none h,
    dropWhile_eq_self_of_none (fun c hc => h c (List.mem_reverse.mp hc)),
    List.reverse_reverse]

theorem mem_of_mem_dropWhile {p : Char → Bool} {c : Char} {l : List Char}
    (h : c ∈ l.dropWhile p) : c ∈ l := by
  induction l with
  | nil => simpa using h
  | cons a t ih =>
    rw [List.dropWhile_cons] at h
    by_cases hp : p a
    · simp only [hp, if_true] at h
      exact List.mem_cons_of_mem a (ih h)
    · simp only [hp] at h
      simpa using h

theorem mem_dropWhile_of_mem {p : Char → Bool} {c : Char} {l : List Char}
    (h : c ∈ l) (hc : p c = false) : c ∈ l.dropWhile p := by
  induction l with
  | nil => simpa using h
  | cons a t ih =>
    rw [List.dropWhile_cons]
    by_cases hp : p a
    · simp only [hp, if_true]
      rcases List.mem_cons.mp h with rfl | hm
      · rw [hp] at hc; cases hc
      · exact ih hm
    · simp only [hp, if_false]
      exact h

theorem mem_of_mem_trimWs {c : Char} {l : List Char} (h : c ∈ trimWs l) : c ∈ l := by
  unfold trimWs at h
  rw [List.mem_reverse] at h
  have h1 := mem_of_mem_dropWhile h
  rw [List.mem_reverse] at h1
  exact mem_of_mem_dropWhile h1

theorem mem_trimWs_of_mem {c : Char} {l : List Char} (h : c ∈ l)
    (hc : isHttpWs c = false) : c ∈ trimWs l := by
  unfold trimWs
  rw [List.mem_reverse]
  exact mem_dropWhile_of_mem (List.mem_reverse.mpr (mem_dropWhile_of_mem h hc)) hc

theorem collapseLB_cons_lb_t {a : Char} {t : List Char} (hl : isLineBreak a = true) :
    collapseLB true (a :: t) = collapseLB true t := by
  simp [collapseLB, hl]

theorem collapseLB_cons_lb_f {a : Char} {t : List Char} (hl : isLineBreak a = true) :
    collapseLB false (a :: t) = ' ' :: collapseLB true t := by
  simp [collapseLB, hl]

theorem collapseLB_cons_other {a : Char} {b : Bool} {t : List Char}
    (hl : isLineBreak a = false) :
    collapseLB b (a :: t) = a :: collapseLB false t := by
  simp [collapseLB, hl]

theorem mem_of_mem_collapseLB {c : Char} {b : Bool} {l : List Char}
    (h : c ∈ collapseLB b l) : c = ' ' ∨ (c ∈ l ∧ isLineBreak c = false) := by
  induction l generalizing b with
  | nil => simp [collapseLB] at h
  | cons a t ih =>
    by_cases hl : isLineBreak a
    · cases b with
      | true =>
        rw [collapseLB_cons_lb_t hl] at h
        rcases ih h with h' | h'
        · exact Or.inl h'
        · exact Or.inr ⟨List.mem_cons_of_mem a h'.1, h'.2⟩
      | false =>
        rw [collapseLB_cons_lb_f hl] at h
        rcases List.mem_cons.mp h with rfl | h
        · exact Or.inl rfl
        · rcases ih h with h' | h'
          · exact Or.inl h'
          · exact Or.inr ⟨List.mem_cons_of_mem a h'.1, h'.2⟩
    · rw [collapseLB_cons_other (by simpa using hl)] at h
      rcases List.mem_cons.mp h with rfl | h
      · exact Or.inr ⟨List.mem_cons_self _ _, by simpa using hl⟩
      · rcases ih h with h' | h'
        · exact Or.inl h'
        · exact Or.inr ⟨List.mem_cons_of_mem a h'.1, h'.2⟩

theorem mem_collapseLB_of_mem {c : Char} {b : Bool} {l : List Char}
    (h : c ∈ l) (hc : isLineBreak c = false) : c ∈ collapseLB b l := by
  induction l generalizing b with
  | nil => simp at h
  | cons a t ih =>
    rcases List.mem_cons.mp h with rfl | hm
    · rw [collapseLB_cons_other hc]
      exact List.mem_cons_self _ _
    · by_cases hl : isLineBreak a
      · cases b with
        | true => rw [collapseLB_cons_lb_t hl]; exact ih hm
        | false =>
          rw [collapseLB_cons_lb_f hl]
          exact List.mem_cons_of_mem _ (ih hm)
      · rw [collapseLB_cons_other (by simpa using hl)]
        exact List.mem_cons_of_mem _ (ih hm)

/-! ### Normalization lemmas -/

theorem norm_name_ok_elim {n k : String} (h : normalizeHeaderName n = .ok k) :
    (trimWs n.toList).isEmpty = false ∧
    (trimWs n.toList).any disallowedNameChar = false ∧
    k = String.mk ((trimWs n.toList).map Char.toLower) := by
  unfold normalizeHeaderName at h
  split at h
  · exact Except.noConfusion h
  · split at h
    · exact Except.noConfusion h
    · rename_i h1 h2
      cases h
      exact ⟨by simpa using h1, by simpa using h2, rfl⟩

theorem disallowedNameChar_not_ws {c : Char} (h : disallowedNameChar c = false) :
    isHttpWs c = false := by
  unfold disallowedNameChar at h
  simp only [Bool.or_eq_false_iff] at h
  exact h.1.2

theorem norm_name_chars {n k : String} (h : normalizeHeaderName n = .ok k) :
    ∀ c ∈ k.toList, disallowedNameChar c = false := by
  obtain ⟨-, h2, h3⟩ := norm_name_ok_elim h
  intro c hc
  rw [h3] at hc
  have hc' : c ∈ (trimWs n.toList).map Char.toLower := hc
  obtain ⟨c', hc'mem, rfl⟩ := List.mem_map.mp hc'
  have : disallowedNameChar c' = false := by
    rw [List.any_eq_false] at h2
    simpa using h2 c' hc'mem
  exact disallowedNameChar_toLower this

theorem norm_name_idem {n k : String} (h : normalizeHeaderName n = .ok k) :
    normalizeHeaderName k = .ok k := by
  obtain ⟨h1, h2, h3⟩ := norm_name_ok_elim h
  have hchars := norm_name_chars h
  have htrim : trimWs k.toList = k.toList :=
    trimWs_eq_self (fun c hc => disallowedNameChar_not_ws (hchars c hc))
  have hne : k.toList.isEmpty = false := by
    rw [h3]
    cases hl : trimWs n.toList with
    | nil => rw [hl] at h1; simp at h1
    | cons a t => simp
  have hany : k.toList.any disallowedNameChar = false := by
    rw [List.any_eq_false]
    intro c hc
    simpa using hchars c hc
  have hmap : k.toList.map Char.toLower = k.toList := by
    rw [h3]
    show ((trimWs n.toList).map Char.toLower).map Char.toLower =
      (trimWs n.toList).map Char.toLower
    rw [List.map_map]
    apply List.map_congr_left
    intro c _
    exact toLower_idem c
  unfold normalizeHeaderName
  rw [htrim, hne, hany]
  simp only [Bool.false_eq_true, if_false]
  rw [hmap]
  cases k
  rfl

theorem norm_value_ok_elim {v w : String} (h : normalizeHeaderValue v = .ok w) :
    (collapseLB false (trimWs v.toList)).any disallowedValueChar = false ∧
    w = String.mk (collapseLB false (trimWs v.toList)) := by
  unfold normalizeHeaderValue at h
  split at h
  · exact Except.noConfusion h
  · rename_i h1
    cases h
    exact ⟨by simpa using h1, rfl⟩

theorem norm_value_chars {v w : String} (h : normalizeHeaderValue v = .ok w) :
    ∀ c ∈ w.toList, disallowedValueChar c = false := by
  obtain ⟨h1, h2⟩ := norm_value_ok_elim h
  intro c hc
  rw [h2] at hc
  rw [List.any_eq_false] at h1
  simpa using h1 c hc

theorem disallowedValueChar_not_ws {c : Char} (hd : disallowedValueChar c = true)
    (hlb : isLineBreak c = false) : isHttpWs c = false := by
  unfold disallowedValueChar at hd
  unfold isLineBreak at hlb
  unfold isHttpWs
  simp only [Bool.or_eq_true, Bool.and_eq_true, Bool.not_eq_true', decide_eq_true_eq,
    decide_eq_false_iff_not] at hd
  simp only [Bool.or_eq_false_iff, decide_eq_false_iff_not] at hlb
  simp only [Bool.or_eq_false_iff, decide_eq_false_iff_not]
  omega

theorem norm_value_append_ok {s v w : String}
    (hs : ∀ c ∈ s.toList, disallowedValueChar c = false)
    (hv : normalizeHeaderValue v = .ok w) :
    ∃ w', normalizeHeaderValue (s ++ ", " ++ v) = .ok w' := by
  obtain ⟨h1, -⟩ := norm_value_ok_elim hv
  rw [List.any_eq_false] at h1
  have hany : (collapseLB false (trimWs (s ++ ", " ++ v).toList)).any
      disallowedValueChar = false := by
    rw [List.any_eq_false]
    intro c hc
    simp only [Bool.not_eq_true]
    by_contra hcd
    simp only [Bool.not_eq_false] at hcd
    rcases mem_of_mem_collapseLB hc with rfl | ⟨hmem, hlb⟩
    · simp [disallowedValueChar] at hcd
    · have hmem' : c ∈ (s ++ ", " ++ v).toList := mem_of_mem_trimWs hmem
      have hsplit : (s ++ ", " ++ v).toList = s.toList ++ [',', ' '] ++ v.toList := by
        show (s ++ ", " ++ v).data = s.data ++ [',', ' '] ++ v.data
        rw [String.data_append, String.data_append]
      rw [hsplit] at hmem'
      rcases List.mem_append.mp hmem' with hm | hm
      · rcases List.mem_append.mp hm with hm' | hm'
        · rw [hs c hm'] at hcd
          exact Bool.noConfusion hcd
        · have : c = ',' ∨ c = ' ' := by simpa using hm'
          rcases this with rfl | rfl
          · simp [disallowedValueChar] at hcd
          · simp [disallowedValueChar] at hcd
      · have hws : isHttpWs c = false := disallowedValueChar_not_ws hcd hlb
        have hcc : c ∈ collapseLB false (trimWs v.toList) :=
          mem_collapseLB_of_mem (mem_trimWs_of_mem hm hws) hlb
        exact (h1 c hcc) hcd
  refine ⟨String.mk (collapseLB false (trimWs (s ++ ", " ++ v).toList)), ?_⟩
  unfold normalizeHeaderValue
  rw [hany]
  simp

/-! ### Association-list lemmas -/

theorem keysA_cons {α : Type} (p : String × α) (t : List (String × α)) :
    keysA (p :: t) = p.1 :: keysA t := rfl

theorem deleteA_cons {α : Type} (p : String × α) (t : List (String × α)) (k : String) :
    deleteA (p :: t) k = if p.1 = k then deleteA t k else p :: deleteA t k := by
  simp only [deleteA, List.filter_cons]
  by_cases hp : p.1 = k
  · simp [hp]
  · simp [hp]

theorem lookupA_setA_self {α : Type} (l : List (String × α)) (k : String) (v : α) :
    lookupA (setA l k v) k = some v := by
  induction l with
  | nil => simp [setA, lookupA]
  | cons p t ih =>
    by_cases h : p.1 = k
    · simp [setA, h, lookupA]
    · simp [setA, h, lookupA, ih]

theorem lookupA_setA_ne {α : Type} (l : List (String × α)) (k : String) (v : α)
    (k' : String) (h : k' ≠ k) : lookupA (setA l k v) k' = lookupA l k' := by
  induction l with
  | nil => simp [setA, lookupA, Ne.symm h]
  | cons p t ih =>
    by_cases hp : p.1 = k
    · simp only [setA, hp, if_true]
      simp [lookupA, Ne.symm h, hp]
    · simp only [setA, hp, if_false]
      simp [lookupA, ih]

theorem keysA_setA_of_mem {α : Type} {l : List (String × α)} {k : String} (v : α)
    (h : k ∈ keysA l) : keysA (setA l k v) = keysA l := by
  induction l with
  | nil => simp [keysA] at h
  | cons p t ih =>
    by_cases hp : p.1 = k
    · simp [setA, hp, keysA]
    · have h' : k ∈ keysA t := by
        rcases List.mem_cons.mp h with h'' | h''
        · exact absurd h''.symm hp
        · exact h''
      simp [setA, hp, keysA]
      exact ih h'

theorem keysA_setA_of_not_mem {α : Type} {l : List (String × α)} {k : String} (v : α)
    (h : ¬k ∈ keysA l) : keysA (setA l k v) = keysA l ++ [k] := by
  induction l with
  | nil => simp [setA, keysA]
  | cons p t ih =>
    rw [keysA_cons, List.mem_cons] at h
    push_neg at h
    have hp : ¬p.1 = k := fun hc => h.1 hc.symm
    simp only [setA, hp, if_false, keysA_cons, ih h.2, List.cons_append]

theorem mem_keysA_setA {α : Type} {l : List (String × α)} {k k' : String} {v : α} :
    k' ∈ keysA (setA l k v) ↔ k' ∈ keysA l ∨ k' = k := by
  by_cases h : k ∈ keysA l
  · rw [keysA_setA_of_mem v h]
    constructor
    · exact Or.inl
    · rintro (h' | rfl)
      · exact h'
      · exact h
  · rw [keysA_setA_of_not_mem v h]
    simp

theorem mem_setA {α : Type} {l : List (String × α)} {k : String} {v : α}
    {p : String × α} (h : p ∈ setA l k v) : p ∈ l ∨ p = (k, v) := by
  induction l with
  | nil => simpa [setA] using h
  | cons q t ih =>
    by_cases hq : q.1 = k
    · simp only [setA, hq, if_true] at h
      rcases List.mem_cons.mp h with rfl | h'
      · exact Or.inr rfl
      · exact Or.inl (List.mem_cons_of_mem q h')
    · simp only [setA, hq, if_false] at h
      rcases List.mem_cons.mp h with rfl | h'
      · exact Or.inl (List.mem_cons_self _ _)
      · rcases ih h' with h'' | h''
        · exact Or.inl (List.mem_cons_of_mem q h'')
        · exact Or.inr h''

theorem lookupA_deleteA_self {α : Type} (l : List (String × α)) (k : String) :
    lookupA (deleteA l k) k = none := by
  induction l with
  | nil => simp [deleteA, lookupA]
  | cons p t ih =>
    rw [deleteA_cons]
    by_cases hp : p.1 = k
    · rw [if_pos hp]
      exact ih
    · rw [if_neg hp]
      simp [lookupA, hp, ih]

theorem lookupA_deleteA_ne {α : Type} (l : List (String × α)) (k k' : String)
    (h : k' ≠ k) : lookupA (deleteA l k) k' = lookupA l k' := by
  induction l with
  | nil => simp [deleteA, lookupA]
  | cons p t ih =>
    rw [deleteA_cons]
    by_cases hp : p.1 = k
    · rw [if_pos hp]
      have hpk : ¬p.1 = k' := fun hc => h ((hc ▸ hp : k' = k))
      simp [lookupA, hpk, ih]
    · rw [if_neg hp]
      by_cases hk' : p.1 = k'
      · simp [lookupA, hk']
      · simp [lookupA, hk', ih]

theorem mem_keysA_deleteA {α : Type} {l : List (String × α)} {k k' : String} :
    k' ∈ keysA (deleteA l k) ↔ k' ∈ keysA l ∧ k' ≠ k := by
  induction l with
  | nil => simp [deleteA, keysA]
  | cons p t ih =>
    rw [deleteA_cons]
    by_cases hp : p.1 = k
    · rw [if_pos hp, ih, keysA_cons, List.mem_cons]
      constructor
      · rintro ⟨h1, h2⟩
        exact ⟨Or.inr h1, h2⟩
      · rintro ⟨h1 | h1, h2⟩
        · exact absurd (h1.trans hp) h2
        · exact ⟨h1, h2⟩
    · rw [if_neg hp, keysA_cons, keysA_cons, List.mem_cons, List.mem_cons, ih]
      constructor
      · rintro (rfl | ⟨h1, h2⟩)
        · exact ⟨Or.inl rfl, fun hc => hp hc⟩
        · exact ⟨Or.inr h1, h2⟩
      · rintro ⟨rfl | h1, h2⟩
        · exact Or.inl rfl
        · exact Or.inr ⟨h1, h2⟩

theorem mem_deleteA {α : Type} {l : List (String × α)} {k : String}
    {p : String × α} (h : p ∈ deleteA l k) : p ∈ l := by
  exact List.mem_of_mem_filter h

theorem lookupA_isSome_iff {α : Type} {l : List (String × α)} {k : String} :
    (lookupA l k).isSome = true ↔ k ∈ keysA l := by
  induction l with
  | nil => simp [lookupA, keysA]
  | cons p t ih =>
    by_cases hp : p.1 = k
    · simp [lookupA, hp, keysA]
    · simp only [lookupA, hp, if_false, ih, keysA_cons, List.mem_cons]
      constructor
      · exact Or.inr
      · rintro (rfl | h1)
        · exact absurd rfl hp
        · exact h1

theorem lookupA_eq_none_iff {α : Type} {l : List (String × α)} {k : String} :
    lookupA l k = none ↔ ¬k ∈ keysA l := by
  rw [← lookupA_isSome_iff]
  cases lookupA l k <;> simp

theorem lookupA_some_mem {α : Type} {l : List (String × α)} {k : String} {v : α}
    (h : lookupA l k = some v) : (k, v) ∈ l := by
  induction l with
  | nil => simp [lookupA] at h
  | cons p t ih =>
    by_cases hp : p.1 = k
    · rw [lookupA, if_pos hp] at h
      cases h
      subst hp
      rw [Prod.mk.eta]
      exact List.mem_cons_self _ _
    · rw [lookupA, if_neg hp] at h
      exact List.mem_cons_of_mem p (ih h)

/-! ### Enumeration-order lemmas -/

theorem mem_insertByNum {a s : String} {l : List String} :
    a ∈ insertByNum s l ↔ a = s ∨ a ∈ l := by
  induction l with
  | nil => simp [insertByNum]
  | cons b t ih =>
    rw [insertByNum]
    by_cases h : strNum s ≤ strNum b
    · simp [h]
    · simp only [h, if_false, List.mem_cons, ih]
      tauto

theorem mem_sortByNum {a : String} {l : List String} :
    a ∈ sortByNum l ↔ a ∈ l := by
  induction l with
  | nil => simp [sortByNum]
  | cons b t ih =>
    show a ∈ insertByNum b (sortByNum t) ↔ _
    rw [mem_insertByNum, ih, List.mem_cons]

theorem mem_objectKeys {α : Type} {a : String} {l : List (String × α)} :
    a ∈ objectKeys l ↔ a ∈ keysA l := by
  unfold objectKeys
  rw [List.mem_append, mem_sortByNum, List.mem_filter, List.mem_filter]
  constructor
  · rintro (⟨h1, -⟩ | ⟨h1, -⟩)
    · exact h1
    · exact h1
  · intro h1
    by_cases hi : isArrayIndexStr a
    · exact Or.inl ⟨h1, hi⟩
    · exact Or.inr ⟨h1, by simpa using hi⟩

theorem objectKeys_no_idx {α : Type} {l : List (String × α)}
    (h : ∀ k ∈ keysA l, isArrayIndexStr k = false) : objectKeys l = keysA l := by
  unfold objectKeys
  have h1 : (l.map Prod.fst).filter isArrayIndexStr = [] := by
    rw [List.filter_eq_nil]
    intro a ha
    simp [h a ha]
  have h2 : (l.map Prod.fst).filter (fun k => !isArrayIndexStr k) = l.map Prod.fst := by
    rw [List.filter_eq_self]
    intro a ha
    simp [h a ha]
  rw [h1, h2]
  rfl

theorem objectKeys_singleton {α : Type} (p : String × α) : objectKeys [p] = [p.1] := by
  unfold objectKeys
  by_cases h : isArrayIndexStr p.1
  · simp [h, sortByNum, insertByNum]
  · simp [h, sortByNum]

/-! ### Operation-level lemmas -/

namespace HeadersPolyfill

theorem set_ok_elim {m m' : HeadersPolyfill} {name value : String}
    (h : m.set name value = (.ok (), m')) :
    ∃ k nv, normalizeHeaderName name = .ok k ∧ normalizeHeaderValue value = .ok nv ∧
      m' = ⟨recordSet m.headers k nv, setA m.names k name⟩ := by
  unfold set at h
  split at h
  · exact Prod.noConfusion h (fun h1 _ => Except.noConfusion h1)
  · rename_i k hk
    split at h
    · exact Prod.noConfusion h (fun h1 _ => Except.noConfusion h1)
    · rename_i nv hnv
      exact ⟨k, nv, hk, hnv, (Prod.mk.injEq _ _ _ _).mp h |>.2.symm⟩

theorem set_eq_ok {m : HeadersPolyfill} {name value k nv : String}
    (hk : normalizeHeaderName name = .ok k) (hnv : normalizeHeaderValue value = .ok nv) :
    m.set name value = (.ok (), ⟨recordSet m.headers k nv, setA m.names k name⟩) := by
  unfold set
  rw [hk, hnv]

theorem has_ok_of_norm {m : HeadersPolyfill} {name k : String}
    (hk : normalizeHeaderName name = .ok k) :
    m.has name = .ok ((lookupA m.headers k).isSome) := by
  unfold has
  rw [hk]
  rfl

theorem get_ok_of_norm {m : HeadersPolyfill} {name k : String}
    (hk : normalizeHeaderName name = .ok k) :
    m.get name = .ok (match lookupA m.headers k with
      | some v => if v = "" then .jsNull else .str v
      | none =>
        if k = "constructor" then .protoFn
        else if k = "__proto__" then .protoObj
        else .jsNull) := by
  unfold get
  rw [hk]
  rfl

end HeadersPolyfill

namespace HeadersPolyfill

theorem append_ok_eq {m : HeadersPolyfill} {name k : String} (value : String)
    (hk : normalizeHeaderName name = .ok k) :
    m.append name value = m.set name (resolveValue m k value) := by
  unfold append
  rw [hk]
  dsimp only
  have hkk := norm_name_idem hk
  rw [has_ok_of_norm hkk, get_ok_of_norm hkk]
  dsimp only
  cases hl : lookupA m.headers k with
  | none =>
    simp only [hl, Option.isSome_none, Bool.false_eq_true, if_false]
    rw [resolveValue, hl]
  | some s =>
    simp only [hl, Option.isSome_some, if_true]
    rw [resolveValue, hl]
    by_cases hs : s = ""
    · simp only [hs, if_pos rfl]
      rfl
    · simp only [hs, if_false]
      rfl

theorem delete_ok_of_has_false {m : HeadersPolyfill} {name : String}
    (h : m.has name = .ok false) : m.delete name = (.ok (), m) := by
  unfold delete
  rw [h]

theorem delete_ok_of_has_true {m : HeadersPolyfill} {name k : String}
    (h : m.has name = .ok true) (hk : normalizeHeaderName name = .ok k) :
    m.delete name = (.ok (), ⟨deleteA m.headers k, deleteA m.names k⟩) := by
  unfold delete
  rw [h, hk]

theorem delete_ok_elim {m m' : HeadersPolyfill} {name : String}
    (h : m.delete name = (.ok (), m')) :
    (m.has name = .ok false ∧ m' = m) ∨
    (∃ k, normalizeHeaderName name = .ok k ∧ m.has name = .ok true ∧
      m' = ⟨deleteA m.headers k, deleteA m.names k⟩) := by
  unfold delete at h
  cases hh : m.has name with
  | error e =>
    rw [hh] at h
    exact Prod.noConfusion h (fun h1 _ => Except.noConfusion h1)
  | ok b =>
    rw [hh] at h
    cases b with
    | false =>
      simp only at h
      exact Or.inl ⟨rfl, ((Prod.mk.injEq _ _ _ _).mp h).2.symm⟩
    | true =>
      simp only at h
      cases hk : normalizeHeaderName name with
      | error e =>
        rw [hk] at h
        exact Prod.noConfusion h (fun h1 _ => Except.noConfusion h1)
      | ok k =>
        rw [hk] at h
        exact Or.inr ⟨k, rfl, rfl, ((Prod.mk.injEq _ _ _ _).mp h).2.symm⟩

theorem has_ok_elim {m : HeadersPolyfill} {name : String} {b : Bool}
    (h : m.has name = .ok b) :
    ∃ k, normalizeHeaderName name = .ok k ∧ (lookupA m.headers k).isSome = b := by
  unfold has at h
  cases hk : normalizeHeaderName name with
  | error e =>
    rw [hk] at h
    exact Except.noConfusion h
  | ok k =>
    rw [hk] at h
    simp only [Except.map] at h
    cases h
    exact ⟨k, rfl, rfl⟩

end HeadersPolyfill

/-! ### The reachable-state invariant -/

theorem wf_empty : WF emptyHeaders := by
  refine ⟨?_, ?_, ?_, ?_⟩ <;> simp [emptyHeaders, keysA]

theorem WF.headers_no_proto {m : HeadersPolyfill} (hwf : WF m) :
    ¬"__proto__" ∈ keysA m.headers := by
  intro hc
  exact ((hwf.keys_eq _).mp hc).2 rfl

theorem WF.names_lookup {m : HeadersPolyfill} (hwf : WF m) {k : String}
    (h : k ∈ keysA m.names) :
    ∃ r, lookupA m.names k = some r ∧ normalizeHeaderName r = .ok k := by
  have h1 : (lookupA m.names k).isSome = true := lookupA_isSome_iff.mpr h
  cases hl : lookupA m.names k with
  | none => rw [hl] at h1; cases h1
  | some r =>
    exact ⟨r, rfl, hwf.names_norm (k, r) (lookupA_some_mem hl)⟩

theorem wf_set {m m' : HeadersPolyfill} {name value : String} (hwf : WF m)
    (h : m.set name value = (.ok (), m')) : WF m' := by
  obtain ⟨k, nv, hk, hnv, rfl⟩ := HeadersPolyfill.set_ok_elim h
  by_cases hp : k = "__proto__"
  · subst hp
    refine ⟨?_, ?_, hwf.header_keys_norm, hwf.stored_ok⟩
    · intro k'
      show k' ∈ keysA m.headers ↔ _
      rw [hwf.keys_eq k']
      constructor
      · rintro ⟨h1, h2⟩
        exact ⟨mem_keysA_setA.mpr (Or.inl h1), h2⟩
      · rintro ⟨h1, h2⟩
        rcases mem_keysA_setA.mp h1 with h3 | rfl
        · exact ⟨h3, h2⟩
        · exact absurd rfl h2
    · intro p hp'
      rcases mem_setA hp' with h1 | rfl
      · exact hwf.names_norm p h1
      · exact hk
  · refine ⟨?_, ?_, ?_, ?_⟩
    · intro k'
      have hrs : recordSet m.headers k nv = setA m.headers k nv := if_neg hp
      show k' ∈ keysA (recordSet m.headers k nv) ↔
        (k' ∈ keysA (setA m.names k name) ∧ k' ≠ "__proto__")
      rw [hrs, mem_keysA_setA, mem_keysA_setA, hwf.keys_eq k']
      constructor
      · rintro (⟨h1, h2⟩ | rfl)
        · exact ⟨Or.inl h1, h2⟩
        · exact ⟨Or.inr rfl, hp⟩
      · rintro ⟨h1 | rfl, h2⟩
        · exact Or.inl ⟨h1, h2⟩
        · exact Or.inr rfl
    · intro p hp'
      rcases mem_setA hp' with h1 | rfl
      · exact hwf.names_norm p h1
      · exact hk
    · intro p hp'
      have hrs : recordSet m.headers k nv = setA m.headers k nv := if_neg hp
      rw [hrs] at hp'
      rcases mem_setA hp' with h1 | rfl
      · exact hwf.header_keys_norm p h1
      · exact norm_name_idem hk
    · intro p hp'
      have hrs : recordSet m.headers k nv = setA m.headers k nv := if_neg hp
      rw [hrs] at hp'
      rcases mem_setA hp' with h1 | rfl
      · exact hwf.stored_ok p h1
      · exact norm_value_chars hnv

theorem wf_append {m m' : HeadersPolyfill} {name value : String} (hwf : WF m)
    (h : m.append name value = (.ok (), m')) : WF m' := by
  cases hk : normalizeHeaderName name with
  | error e =>
    unfold HeadersPolyfill.append at h
    rw [hk] at h
    exact Prod.noConfusion h (fun h1 _ => Except.noConfusion h1)
  | ok k =>
    rw [HeadersPolyfill.append_ok_eq value hk] at h
    exact wf_set hwf h

theorem wf_delete {m m' : HeadersPolyfill} {name : String} (hwf : WF m)
    (h : m.delete name = (.ok (), m')) : WF m' := by
  rcases HeadersPolyfill.delete_ok_elim h with ⟨-, rfl⟩ | ⟨k, -, -, rfl⟩
  · exact hwf
  · refine ⟨?_, ?_, ?_, ?_⟩
    · intro k'
      show k' ∈ keysA (deleteA m.headers k) ↔ _
      rw [mem_keysA_deleteA, mem_keysA_deleteA, hwf.keys_eq k']
      tauto
    · intro p hp'
      exact hwf.names_norm p (mem_deleteA hp')
    · intro p hp'
      exact hwf.header_keys_norm p (mem_deleteA hp')
    · intro p hp'
      exact hwf.stored_ok p (mem_deleteA hp')

theorem wf_appendAll {m m' : HeadersPolyfill} {l : List (String × String)}
    (hwf : WF m) (h : appendAll m l = .ok m') : WF m' := by
  induction l generalizing m with
  | nil =>
    unfold appendAll at h
    cases h
    exact hwf
  | cons p t ih =>
    unfold appendAll at h
    cases hap : m.append p.1 p.2 with
    | mk r m1 =>
      rw [hap] at h
      cases r with
      | error e => exact Except.noConfusion h
      | ok u =>
        cases u
        exact ih (wf_append hwf hap) h

theorem wf_construct {i : HeadersInit} {m : HeadersPolyfill}
    (h : construct i = .ok m) : WF m := by
  cases i with
  | headersLike es => exact wf_appendAll wf_empty h
  | pairList es => exact wf_appendAll wf_empty h
  | record ps => exact wf_appendAll wf_empty h
  | absent =>
    cases h
    exact wf_empty

theorem reachable_wf {m : HeadersPolyfill} (h : Reachable m) : WF m := by
  induction h with
  | constructed i m hc => exact wf_construct hc
  | setStep m name value m' _ hstep ih => exact wf_set ih hstep
  | appendStep m name value m' _ hstep ih => exact wf_append ih hstep
  | deleteStep m name m' _ hstep ih => exact wf_delete ih hstep

/-! ### Claim C1: lockstep invariant -/

/-- Claim C1, counterexample: a successful `set("__proto__", "x")` on a
freshly constructed map updates `names` but cannot create the own property
on `headers` (the assignment hits the inherited accessor), so the two key
sets differ in a reachable state. -/
theorem c1_lockstep_counterexample :
    construct .absent = .ok emptyHeaders ∧
    (emptyHeaders.set "__proto__" "x").1 = .ok () ∧
    keysA (emptyHeaders.set "__proto__" "x").2.names = ["__proto__"] ∧
    keysA (emptyHeaders.set "__proto__" "x").2.headers = [] ∧
    ¬("__proto__" ∈ keysA (emptyHeaders.set "__proto__" "x").2.headers ↔
      "__proto__" ∈ keysA (emptyHeaders.set "__proto__" "x").2.names) := by
  decide

/-- Claim C1, amended: in every reachable state the key set of `headers`
equals the key set of `names` with `"__proto__"` removed — a name that
normalizes to `"__proto__"` records a raw spelling in `names` but can never
appear in `headers`. -/
theorem c1_lockstep_modulo_proto {m : HeadersPolyfill} (h : Reachable m) :
    ∀ k, k ∈ keysA m.headers ↔ (k ∈ keysA m.names ∧ k ≠ "__proto__") :=
  (reachable_wf h).keys_eq

/-- Claim C1, witness: the amended lockstep statement evaluated on the
reachable state `set("X", "a")` of a fresh map, at the key `"x"`. -/
theorem c1_lockstep_modulo_proto_witness :
    "x" ∈ keysA (emptyHeaders.set "X" "a").2.headers ↔
      ("x" ∈ keysA (emptyHeaders.set "X" "a").2.names ∧ "x" ≠ "__proto__") :=
  c1_lockstep_modulo_proto
    (Reachable.setStep emptyHeaders "X" "a" (emptyHeaders.set "X" "a").2
      (Reachable.constructed .absent emptyHeaders rfl) (by decide)) "x"

/-! ### Claim C2: case-insensitive lookup -/

/-- Claim C2, counterexample: with `v = ""` (accepted by value
normalization), `set("X", v)` stores the empty string, but
`get("x")` evaluates `"" || null` and returns `null`, not the stored
normalized form of `v`. -/
theorem c2_case_insensitive_counterexample :
    normalizeHeaderValue "" = .ok "" ∧
    (emptyHeaders.set "X" "").1 = .ok () ∧
    lookupA (emptyHeaders.set "X" "").2.headers "x" = some "" ∧
    (emptyHeaders.set "X" "").2.get "x" = .ok .jsNull ∧
    JsVal.jsNull ≠ .str "" := by
  decide

/-- Claim C2, amended: for names `n1`, `n2` differing only in case or
surrounding whitespace (both normalizing to the same valid key `k`), after
`set(n1, v)` a `get(n2)` returns the stored normalized form of `v` —
provided that normalized form is non-empty and `k` is not `"__proto__"`. -/
theorem c2_set_get_case_insensitive {m : HeadersPolyfill} (n1 n2 v k nv : String)
    (h1 : normalizeHeaderName n1 = .ok k) (h2 : normalizeHeaderName n2 = .ok k)
    (hp : k ≠ "__proto__") (hv : normalizeHeaderValue v = .ok nv) (hne : nv ≠ "") :
    (m.set n1 v).2.get n2 = .ok (.str nv) := by
  rw [HeadersPolyfill.set_eq_ok h1 hv]
  rw [HeadersPolyfill.get_ok_of_norm h2]
  have hrs : recordSet m.headers k nv = setA m.headers k nv := if_neg hp
  show Except.ok (match lookupA (recordSet m.headers k nv) k with
    | some v => if v = "" then JsVal.jsNull else JsVal.str v
    | none =>
      if k = "constructor" then JsVal.protoFn
      else if k = "__proto__" then JsVal.protoObj
      else JsVal.jsNull) = Except.ok (JsVal.str nv)
  rw [hrs, lookupA_setA_self]
  simp [hne]

/-- Claim C2, witness: the amended statement at `n1 = "X-Foo"`,
`n2 = "  x-foo "` (case and whitespace variation), `v = " a "`. -/
theorem c2_set_get_case_insensitive_witness :
    (emptyHeaders.set "X-Foo" " a ").2.get "  x-foo " = .ok (.str "a") :=
  c2_set_get_case_insensitive "X-Foo" "  x-foo " " a " "x-foo" "a" (by decide)
    (by decide) (by decide) (by decide) (by decide)

/-! ### Claim C4: totality and faithfulness of get -/

/-- Claim C4, counterexample: on a freshly constructed map, nothing is
stored under `"constructor"`, yet `get("constructor")` reads the inherited
`Object.prototype.constructor` — a truthy function — and returns it rather
than the absent sentinel `null`. -/
theorem c4_get_counterexample :
    normalizeHeaderName "constructor" = .ok "constructor" ∧
    lookupA emptyHeaders.headers "constructor" = none ∧
    emptyHeaders.get "constructor" = .ok .protoFn ∧
    JsVal.protoFn ≠ .jsNull := by
  decide

/-- Claim C4, amended: for a valid name, `get` never throws; it returns the
stored value when one exists and is non-empty, returns `null` when the
stored value is the empty string, and returns `null` on an absent key
provided the normalized name is neither `"constructor"` nor `"__proto__"`
(for those two it reads the inherited `Object.prototype` member instead). -/
theorem c4_get_total {m : HeadersPolyfill} (name k : String)
    (hk : normalizeHeaderName name = .ok k) :
    (∃ r, m.get name = .ok r) ∧
    (∀ v, lookupA m.headers k = some v → v ≠ "" → m.get name = .ok (.str v)) ∧
    (lookupA m.headers k = some "" → m.get name = .ok .jsNull) ∧
    (lookupA m.headers k = none → k ≠ "constructor" → k ≠ "__proto__" →
      m.get name = .ok .jsNull) := by
  rw [HeadersPolyfill.get_ok_of_norm hk]
  refine ⟨⟨_, rfl⟩, ?_, ?_, ?_⟩
  · intro v hv hne
    rw [hv]
    simp [hne]
  · intro hv
    rw [hv]
    simp
  · intro hv h1 h2
    rw [hv]
    simp [h1, h2]

/-- Claim C4, witness: the amended statement evaluated on the state holding
`a ↦ 1`, at the present name `"A"` and at the absent name `"B"`. -/
theorem c4_get_total_witness :
    HeadersPolyfill.get ⟨[("a", "1")], [("a", "A")]⟩ "A" = .ok (.str "1") ∧
    HeadersPolyfill.get ⟨[("a", "1")], [("a", "A")]⟩ "B" = .ok .jsNull :=
  ⟨(c4_get_total "A" "a" (by decide)).2.1 "1" (by decide) (by decide),
   (c4_get_total "B" "b" (by decide)).2.2.2 (by decide) (by decide) (by decide)⟩

/-! ### Claim C10: failure atomicity -/

/-- Claim C10: whenever `set`, `append`, or `delete` raises
`InvalidHeaderName` or `InvalidHeaderValue`, the state at the moment of the
uncaught exception is exactly the state before the call: every normalization
runs before the first field mutation on every path. -/
theorem c10_mutation_atomic :
    (∀ (m : HeadersPolyfill) (n v : String) (e : HeaderError),
      (m.set n v).1 = .error e → (m.set n v).2 = m) ∧
    (∀ (m : HeadersPolyfill) (n v : String) (e : HeaderError),
      (m.append n v).1 = .error e → (m.append n v).2 = m) ∧
    (∀ (m : HeadersPolyfill) (n : String) (e : HeaderError),
      (m.delete n).1 = .error e → (m.delete n).2 = m) := by
  have hset : ∀ (m : HeadersPolyfill) (n v : String) (e : HeaderError),
      (m.set n v).1 = .error e → (m.set n v).2 = m := by
    intro m n v e h
    unfold HeadersPolyfill.set at h ⊢
    cases hk : normalizeHeaderName n with
    | error e' => rfl
    | ok k =>
      dsimp only at h ⊢
      cases hv : normalizeHeaderValue v with
      | error e' => rfl
      | ok nv =>
        rw [hk] at h
        dsimp only at h
        rw [hv] at h
        dsimp only at h
        exact Except.noConfusion h
  refine ⟨hset, ?_, ?_⟩
  · intro m n v e h
    cases hk : normalizeHeaderName n with
    | error e' =>
      unfold HeadersPolyfill.append at h ⊢
      rw [hk]
    | ok k =>
      rw [HeadersPolyfill.append_ok_eq v hk] at h ⊢
      exact hset m n _ e h
  · intro m n e h
    unfold HeadersPolyfill.delete at h ⊢
    cases hh : m.has n with
    | error e' => rfl
    | ok b =>
      cases b with
      | false => rfl
      | true =>
        dsimp only at h ⊢
        cases hk : normalizeHeaderName n with
        | error e' => rfl
        | ok k =>
          rw [hh] at h
          dsimp only at h
          rw [hk] at h
          dsimp only at h
          exact Except.noConfusion h

/-- Claim C10, witness: the atomicity statement evaluated at
`set("bad name", "v")`, `append("bad name", "v")`, `set("X", "v\x00")` and
`delete("bad name")` on the empty map, all of which raise. -/
theorem c10_mutation_atomic_witness :
    (emptyHeaders.set "bad name" "v").2 = emptyHeaders ∧
    (emptyHeaders.set "X" "v\x00").2 = emptyHeaders ∧
    (emptyHeaders.append "bad name" "v").2 = emptyHeaders ∧
    (emptyHeaders.delete "bad name").2 = emptyHeaders :=
  ⟨c10_mutation_atomic.1 emptyHeaders "bad name" "v" .invalidHeaderName (by decide),
   c10_mutation_atomic.1 emptyHeaders "X" "v\x00" .invalidHeaderValue (by decide),
   c10_mutation_atomic.2.1 emptyHeaders "bad name" "v" .invalidHeaderName (by decide),
   c10_mutation_atomic.2.2 emptyHeaders "bad name" .invalidHeaderName (by decide)⟩

/-! ### Claim C3: append merge semantics -/

/-- Claim C3, counterexample: when the existing stored value is the empty
string, `has` reports true but `get` reports `null`, and the template
literal in `append` renders `null` as the string `"null"`: the stored result
is `"null, b"`, not the existing stored value concatenated with `", "` and
the new value (which would be `", b"`). -/
theorem c3_append_merge_counterexample :
    (emptyHeaders.set "X" "").1 = .ok () ∧
    lookupA (emptyHeaders.set "X" "").2.headers "x" = some "" ∧
    ((emptyHeaders.set "X" "").2.append "X" "b").1 = .ok () ∧
    lookupA ((emptyHeaders.set "X" "").2.append "X" "b").2.headers "x" =
      some "null, b" ∧
    ("null, b" : String) ≠ "" ++ ", " ++ "b" := by
  decide

/-- Claim C3, amended: a successful `append` on a valid name (whose
normalized key is not `"__proto__"`) stores, under the normalized key, the
value-normalized form of: the raw value when no entry exists, and otherwise
the existing entry as reported by `get` — the stored string when non-empty,
the string `"null"` when it is empty — joined with `", "` and the raw
value.  In particular `append("X","a"); append("x","b")` makes `get("X")`
return `"a, b"`. -/
theorem c3_append_merge :
    (∀ (m m' : HeadersPolyfill) (name value k : String),
      normalizeHeaderName name = .ok k → k ≠ "__proto__" →
      m.append name value = (.ok (), m') →
      lookupA m'.headers k =
        (normalizeHeaderValue (match lookupA m.headers k with
          | some s => (if s = "" then "null" else s) ++ ", " ++ value
          | none => value)).toOption) ∧
    ((emptyHeaders.append "X" "a").2.append "x" "b").2.get "X" =
      .ok (.str "a, b") := by
  constructor
  · intro m m' name value k hk hp h
    rw [HeadersPolyfill.append_ok_eq value hk] at h
    obtain ⟨k', nv, hk', hnv, rfl⟩ := HeadersPolyfill.set_ok_elim h
    rw [hk] at hk'
    cases hk'
    show lookupA (recordSet m.headers k nv) k = _
    unfold recordSet
    rw [if_neg hp, lookupA_setA_self]
    have hrv : resolveValue m k value = (match lookupA m.headers k with
      | some s => (if s = "" then "null" else s) ++ ", " ++ value
      | none => value) := rfl
    rw [← hrv, hnv]
    rfl
  · decide

/-- Claim C3, witness: the amended statement evaluated at the state holding
`x ↦ "a"`, appending `"b"` under the spelling `"x"`. -/
theorem c3_append_merge_witness :
    lookupA (⟨[("x", "a, b")], [("x", "x")]⟩ : HeadersPolyfill).headers "x" =
      (normalizeHeaderValue
        (match lookupA (⟨[("x", "a")], [("x", "X")]⟩ : HeadersPolyfill).headers "x" with
          | some s => (if s = "" then "null" else s) ++ ", " ++ "b"
          | none => "b")).toOption :=
  c3_append_merge.1 ⟨[("x", "a")], [("x", "X")]⟩ ⟨[("x", "a, b")], [("x", "x")]⟩
    "x" "b" "x" (by decide) (by decide) (by decide)

/-! ### Claim C7: construction from a pair list -/

theorem appendAll_eq_seq (l : List (String × String)) :
    appendAll emptyHeaders l = sequentialAppends l := by
  have key : ∀ (l : List (String × String)) (m : HeadersPolyfill),
      appendAll m l = l.foldlM (fun m p =>
        match m.append p.1 p.2 with
        | (.ok _, m') => .ok m'
        | (.error e, _) => .error e) m := by
    intro l
    induction l with
    | nil => intro m; rfl
    | cons p t ih =>
      intro m
      rw [List.foldlM_cons]
      unfold appendAll
      cases hap : m.append p.1 p.2 with
      | mk r m1 =>
        cases r with
        | error e => rfl
        | ok u =>
          cases u
          exact ih m1
  rw [key]
  rfl

/-- Claim C7: construction from an ordered pair list equals constructing an
empty map and appending each pair in order (list-valued entries joined with
`", "` on both sides); in particular construction from
`[["A","1"],["A","2"]]` stores `a ↦ "1, 2"` and `get("a")` returns
`"1, 2"`. -/
theorem c7_construct_equiv :
    (∀ ps : List (String × ValueInit),
      construct (.pairList ps) =
        sequentialAppends (ps.map (fun p => (p.1, joinVal p.2)))) ∧
    construct (.pairList [("A", .str "1"), ("A", .str "2")]) =
      .ok ⟨[("a", "1, 2")], [("a", "A")]⟩ ∧
    HeadersPolyfill.get ⟨[("a", "1, 2")], [("a", "A")]⟩ "a" = .ok (.str "1, 2") := by
  refine ⟨?_, by decide, by decide⟩
  intro ps
  show appendAll emptyHeaders (ps.map (fun p => (p.1, joinVal p.2))) = _
  exact appendAll_eq_seq _

/-! ### Claim C8: construction never fails -/

/-- Claim C8, counterexample: construction propagates normalization errors —
a pair list with a name containing a space raises `InvalidHeaderName`, and a
header-bag entry whose value contains NUL raises `InvalidHeaderValue`. -/
theorem c8_construct_counterexample :
    construct (.pairList [("bad name", .str "v")]) = .error .invalidHeaderName ∧
    construct (.headersLike [("X", "v\x00")]) = .error .invalidHeaderValue := by
  decide

theorem isOkE_elim {α : Type} {x : Except HeaderError α} (h : isOkE x = true) :
    ∃ a, x = .ok a := by
  cases x with
  | ok a => exact ⟨a, rfl⟩
  | error e => simp [isOkE] at h

theorem append_ok_of_valid {m : HeadersPolyfill} {n v k w : String}
    (hst : ∀ p ∈ m.headers, ∀ c ∈ p.2.toList, disallowedValueChar c = false)
    (hk : normalizeHeaderName n = .ok k) (hv : normalizeHeaderValue v = .ok w) :
    ∃ m', m.append n v = (.ok (), m') := by
  rw [HeadersPolyfill.append_ok_eq v hk]
  have hres : ∃ w', normalizeHeaderValue (resolveValue m k v) = .ok w' := by
    unfold resolveValue
    cases hl : lookupA m.headers k with
    | none => exact ⟨w, hv⟩
    | some s =>
      dsimp only
      have hs := hst (k, s) (lookupA_some_mem hl)
      by_cases hse : s = ""
      · rw [if_pos hse]
        refine norm_value_append_ok ?_ hv
        intro c hc
        have hlist : ("null" : String).toList = ['n', 'u', 'l', 'l'] := rfl
        rw [hlist] at hc
        have : c = 'n' ∨ c = 'u' ∨ c = 'l' ∨ c = 'l' := by simpa using hc
        rcases this with rfl | rfl | rfl | rfl <;> decide
      · rw [if_neg hse]
        exact norm_value_append_ok (fun c hc => hs c hc) hv
  obtain ⟨w', hw'⟩ := hres
  exact ⟨_, HeadersPolyfill.set_eq_ok hk hw'⟩

theorem appendAll_ok {l : List (String × String)} :
    ∀ {m : HeadersPolyfill}, WF m → (∀ p ∈ l, validPair p = true) →
    ∃ m', appendAll m l = .ok m' := by
  induction l with
  | nil =>
    intro m _ _
    exact ⟨m, rfl⟩
  | cons p t ih =>
    intro m hwf hv
    have hp := hv p (List.mem_cons_self _ _)
    unfold validPair at hp
    rw [Bool.and_eq_true] at hp
    obtain ⟨k, hk⟩ := isOkE_elim hp.1
    obtain ⟨w, hw⟩ := isOkE_elim hp.2
    obtain ⟨m1, hap⟩ := append_ok_of_valid hwf.stored_ok hk hw
    obtain ⟨m', h'⟩ := ih (wf_append hwf hap) (fun q hq => hv q (List.mem_cons_of_mem p hq))
    refine ⟨m', ?_⟩
    unfold appendAll
    rw [hap]
    exact h'

/-- Claim C8, amended: construction succeeds for all four shapes provided
every processed entry passes name and value normalization; when an entry is
rejected the error propagates to the caller of the constructor (§7), so the
unconditional "never fails" does not hold. -/
theorem c8_construct_ok {i : HeadersInit} (h : validInit i = true) :
    ∃ m, construct i = .ok m := by
  cases i with
  | headersLike es =>
    refine appendAll_ok wf_empty ?_
    intro p hp
    exact List.all_eq_true.mp h p hp
  | pairList es =>
    refine appendAll_ok wf_empty ?_
    intro p hp
    obtain ⟨q, hq, rfl⟩ := List.mem_map.mp hp
    exact List.all_eq_true.mp h q hq
  | record ps =>
    refine appendAll_ok wf_empty ?_
    intro p hp
    obtain ⟨q, hq, rfl⟩ := List.mem_map.mp hp
    have hqm : q ∈ ps := by
      unfold objectEntries at hq
      obtain ⟨a, ha, hmap⟩ := List.mem_filterMap.mp hq
      cases hl : lookupA ps a with
      | none =>
        rw [hl] at hmap
        simp at hmap
      | some v =>
        rw [hl] at hmap
        simp only [Option.map_some'] at hmap
        cases hmap
        exact lookupA_some_mem hl
    exact List.all_eq_true.mp h q hqm
  | absent => exact ⟨emptyHeaders, rfl⟩

/-- Claim C8, witness: the amended statement evaluated on a pair list whose
entries all normalize (one of them list-valued). -/
theorem c8_construct_ok_witness :
    validInit (.pairList [("A", .str "1"), ("B", .list ["x", "y"])]) = true ∧
    ∃ m, construct (.pairList [("A", .str "1"), ("B", .list ["x", "y"])]) = .ok m :=
  ⟨by decide, c8_construct_ok (by decide)⟩

/-! ### Claim C6: iteration order -/

/-- Claim C6, counterexample: the normalized names live in a plain object,
so ECMAScript enumerates canonical array-index keys first — after
`set("b","1"); set("0","2")` the keys enumerate as `["0","b"]`, not in
first-insertion order `["b","0"]`. -/
theorem c6_iteration_counterexample :
    (emptyHeaders.set "b" "1").1 = .ok () ∧
    ((emptyHeaders.set "b" "1").2.set "0" "2").1 = .ok () ∧
    ((emptyHeaders.set "b" "1").2.set "0" "2").2.keysList = ["0", "b"] ∧
    (["0", "b"] : List String) ≠ ["b", "0"] := by
  decide

theorem objectKeys_congr {α β : Type} {l : List (String × α)} {l' : List (String × β)}
    (h : keysA l = keysA l') : objectKeys l = objectKeys l' := by
  unfold objectKeys
  unfold keysA at h
  rw [h]

/-- Claim C6, amended: provided no stored normalized name is a canonical
array-index string (a digit string such as `"0"` or `"42"`), enumeration
order is first-insertion order: a `set` on a present key leaves the
enumerated key sequence unchanged (an overwrite does not move the entry)
and a `set` on a fresh valid key appends it at the end; in particular
`set("A","1"); set("B","2"); set("A","3")` enumerates `a` then `b`, with
the overwritten value in place. -/
theorem c6_iteration_order :
    (∀ (m m' : HeadersPolyfill) (n v k : String),
      (∀ key ∈ keysA m.headers, isArrayIndexStr key = false) →
      isArrayIndexStr k = false → k ≠ "__proto__" →
      normalizeHeaderName n = .ok k → m.set n v = (.ok (), m') →
      m'.keysList =
        if k ∈ keysA m.headers then m.keysList else m.keysList ++ [k]) ∧
    (((emptyHeaders.set "A" "1").2.set "B" "2").2.set "A" "3").2.keysList =
      ["a", "b"] ∧
    HeadersPolyfill.entriesList (((emptyHeaders.set "A" "1").2.set "B" "2").2.set
      "A" "3").2 = .ok [("a", .str "3"), ("b", .str "2")] := by
  refine ⟨?_, by decide, by decide⟩
  intro m m' n v k hno hki hp hk h
  obtain ⟨k', nv, hk', hnv, rfl⟩ := HeadersPolyfill.set_ok_elim h
  rw [hk] at hk'
  cases hk'
  have hrs : recordSet m.headers k nv = setA m.headers k nv := if_neg hp
  show objectKeys (recordSet m.headers k nv) = _
  rw [hrs]
  by_cases hmem : k ∈ keysA m.headers
  · rw [if_pos hmem]
    exact objectKeys_congr (keysA_setA_of_mem nv hmem)
  · rw [if_neg hmem]
    have hkeys : keysA (setA m.headers k nv) = keysA m.headers ++ [k] :=
      keysA_setA_of_not_mem nv hmem
    have hall : ∀ key ∈ keysA (setA m.headers k nv), isArrayIndexStr key = false := by
      intro key hkey
      rw [hkeys] at hkey
      rcases List.mem_append.mp hkey with h1 | h1
      · exact hno key h1
      · rw [List.mem_singleton.mp h1]
        exact hki
    rw [objectKeys_no_idx hall, hkeys]
    show _ = objectKeys m.headers ++ [k]
    rw [objectKeys_no_idx hno]

/-- Claim C6, witness: the amended per-`set` order statement evaluated on
the state holding `a ↦ 1` — an overwrite of `"A"` keeps the order, a fresh
`"B"` lands at the end. -/
theorem c6_iteration_order_witness :
    HeadersPolyfill.keysList (HeadersPolyfill.set ⟨[("a", "1")], [("a", "A")]⟩
        "A" "2").2 =
      (if "a" ∈ keysA (⟨[("a", "1")], [("a", "A")]⟩ : HeadersPolyfill).headers
        then HeadersPolyfill.keysList ⟨[("a", "1")], [("a", "A")]⟩
        else HeadersPolyfill.keysList ⟨[("a", "1")], [("a", "A")]⟩ ++ ["a"]) :=
  c6_iteration_order.1 ⟨[("a", "1")], [("a", "A")]⟩ _ "A" "2" "a"
    (by decide) (by decide) (by decide) (by decide) (by decide)

/-! ### Claim C5: raw-name tracking -/

/-- Claim C5, counterexample: after the one-call sequence `set("x", "")`,
`raw()` does emit exactly one entry under the latest spelling, but it maps
it to `null` (the value travels through `get`, where `"" || null` is
`null`), not to the merged normalized value `""`. -/
theorem c5_raw_counterexample :
    (emptyHeaders.set "x" "").1 = .ok () ∧
    normalizeHeaderValue "" = .ok "" ∧
    HeadersPolyfill.raw (emptyHeaders.set "x" "").2 = .ok [("x", .jsNull)] ∧
    JsVal.jsNull ≠ .str "" := by
  decide

theorem applyOps_append_last (ops : List HOp) (op : HOp) (m : HeadersPolyfill) :
    applyOps m (ops ++ [op]) = applyOps m ops >>= (fun m1 => stepOp m1 op) := by
  unfold applyOps
  rw [List.foldlM_append]
  simp

theorem set_single {k n v : String} {m m' : HeadersPolyfill}
    (hk : normalizeHeaderName n = .ok k) (hp : k ≠ "__proto__")
    (hshape : (m.headers = [] ∧ m.names = []) ∨
      ∃ w r, m.headers = [(k, w)] ∧ m.names = [(k, r)])
    (h : m.set n v = (.ok (), m')) :
    ∃ w, m'.headers = [(k, w)] ∧ m'.names = [(k, n)] := by
  obtain ⟨k0, nv, hk0, hnv, rfl⟩ := HeadersPolyfill.set_ok_elim h
  rw [hk] at hk0
  cases hk0
  refine ⟨nv, ?_, ?_⟩
  · show recordSet m.headers k nv = _
    unfold recordSet
    rw [if_neg hp]
    rcases hshape with ⟨h1, -⟩ | ⟨w, r, h1, -⟩
    · rw [h1]
      rfl
    · rw [h1]
      simp [setA]
  · show setA m.names k n = _
    rcases hshape with ⟨-, h2⟩ | ⟨w, r, -, h2⟩
    · rw [h2]
      rfl
    · rw [h2]
      simp [setA]

theorem stepOp_single {k : String} {m m' : HeadersPolyfill} {op : HOp}
    (hk : normalizeHeaderName op.opName = .ok k) (hp : k ≠ "__proto__")
    (hshape : (m.headers = [] ∧ m.names = []) ∨
      ∃ w r, m.headers = [(k, w)] ∧ m.names = [(k, r)])
    (h : stepOp m op = .ok m') :
    ∃ w, m'.headers = [(k, w)] ∧ m'.names = [(k, op.opName)] := by
  cases op with
  | setOp n v =>
    unfold stepOp at h
    dsimp only at h
    cases hs : m.set n v with
    | mk r m1 =>
      cases r with
      | error e =>
        rw [hs] at h
        exact Except.noConfusion h
      | ok u =>
        cases u
        rw [hs] at h
        dsimp only at h
        cases h
        exact set_single hk hp hshape hs
  | appendOp n v =>
    unfold stepOp at h
    dsimp only at h
    have hk' : normalizeHeaderName n = .ok k := hk
    rw [HeadersPolyfill.append_ok_eq v hk'] at h
    cases hs : m.set n (resolveValue m k v) with
    | mk r m1 =>
      cases r with
      | error e =>
        rw [hs] at h
        exact Except.noConfusion h
      | ok u =>
        cases u
        rw [hs] at h
        dsimp only at h
        cases h
        exact set_single hk' hp hshape hs

theorem applyOps_shape {k : String} (ops : List HOp) :
    ∀ (m m' : HeadersPolyfill),
    (∀ o ∈ ops, normalizeHeaderName o.opName = .ok k) → k ≠ "__proto__" →
    ((m.headers = [] ∧ m.names = []) ∨
      ∃ w r, m.headers = [(k, w)] ∧ m.names = [(k, r)]) →
    applyOps m ops = .ok m' →
    ((m'.headers = [] ∧ m'.names = []) ∨
      ∃ w r, m'.headers = [(k, w)] ∧ m'.names = [(k, r)]) := by
  induction ops with
  | nil =>
    intro m m' _ _ hsh h
    unfold applyOps at h
    rw [List.foldlM_nil] at h
    cases h
    exact hsh
  | cons o t ih =>
    intro m m' hall hp hsh h
    unfold applyOps at h
    rw [List.foldlM_cons] at h
    cases hso : stepOp m o with
    | error e =>
      rw [hso] at h
      exact Except.noConfusion h
    | ok m1 =>
      rw [hso] at h
      have h' : applyOps m1 t = .ok m' := h
      obtain ⟨w, h1, h2⟩ :=
        stepOp_single (hall o (List.mem_cons_self _ _)) hp hsh hso
      exact ih m1 m' (fun q hq => hall q (List.mem_cons_of_mem o hq)) hp
        (Or.inr ⟨w, o.opName, h1, h2⟩) h'

theorem raw_single {k w r : String} (hk : normalizeHeaderName k = .ok k)
    (hr : r ≠ "__proto__") :
    HeadersPolyfill.raw ⟨[(k, w)], [(k, r)]⟩ =
      .ok [(r, if w = "" then JsVal.jsNull else JsVal.str w)] := by
  have he : HeadersPolyfill.entriesList ⟨[(k, w)], [(k, r)]⟩ =
      .ok [(k, if w = "" then JsVal.jsNull else JsVal.str w)] := by
    unfold HeadersPolyfill.entriesList
    dsimp only
    rw [objectKeys_singleton (k, w)]
    rw [List.mapM_cons, List.mapM_nil]
    rw [HeadersPolyfill.get_ok_of_norm hk]
    dsimp only
    have hl : lookupA [(k, w)] k = some w := by simp [lookupA]
    rw [hl]
    rfl
  unfold HeadersPolyfill.raw
  rw [he]
  dsimp only [Except.map]
  rw [List.foldl_cons, List.foldl_nil]
  have hl : lookupA [(k, r)] k = some r := by simp [lookupA]
  dsimp only
  rw [hl]
  unfold HeadersPolyfill.rawSet HeadersPolyfill.jsKey
  rw [if_neg hr]
  rfl

/-- Claim C5, amended: for every non-empty sequence of `set`/`append` calls
on a fresh map whose names all normalize to the same valid key `k` (with
`k ≠ "__proto__"`), `raw()` emits exactly one entry: it is keyed by the raw
spelling supplied by the last call and mapped to the stored merged value as
`get` reports it (`null` when that stored value is the empty string); e.g.
`append("X-Foo","a"); append("x-foo","b")` gives
`raw() = (x-foo ↦ "a, b")`. -/
theorem c5_raw_tracking :
    (∀ (ops : List HOp) (op : HOp) (k : String) (m' : HeadersPolyfill),
      (∀ o ∈ ops ++ [op], normalizeHeaderName o.opName = .ok k) →
      k ≠ "__proto__" →
      applyOps emptyHeaders (ops ++ [op]) = .ok m' →
      ∃ w, m'.headers = [(k, w)] ∧ m'.names = [(k, op.opName)] ∧
        m'.raw = .ok [(op.opName, if w = "" then JsVal.jsNull else JsVal.str w)]) ∧
    applyOps emptyHeaders [.appendOp "X-Foo" "a", .appendOp "x-foo" "b"] =
      .ok ⟨[("x-foo", "a, b")], [("x-foo", "x-foo")]⟩ ∧
    HeadersPolyfill.raw ⟨[("x-foo", "a, b")], [("x-foo", "x-foo")]⟩ =
      .ok [("x-foo", .str "a, b")] := by
  refine ⟨?_, by decide, by decide⟩
  intro ops op k m' hall hp h
  rw [applyOps_append_last] at h
  cases ha : applyOps emptyHeaders ops with
  | error e =>
    rw [ha] at h
    exact Except.noConfusion h
  | ok m1 =>
    rw [ha] at h
    have h' : stepOp m1 op = .ok m' := h
    have hsh := applyOps_shape ops emptyHeaders m1
      (fun o ho => hall o (List.mem_append.mpr (Or.inl ho))) hp
      (Or.inl ⟨rfl, rfl⟩) ha
    have hop : normalizeHeaderName op.opName = .ok k :=
      hall op (List.mem_append.mpr (Or.inr (List.mem_singleton.mpr rfl)))
    obtain ⟨w, h1, h2⟩ := stepOp_single hop hp hsh h'
    refine ⟨w, h1, h2, ?_⟩
    have hr : op.opName ≠ "__proto__" := by
      intro hc
      rw [hc] at hop
      have hpp : normalizeHeaderName "__proto__" = .ok "__proto__" := by decide
      rw [hpp] at hop
      cases hop
      exact hp rfl
    have hm' : m' = ⟨[(k, w)], [(k, op.opName)]⟩ := by
      cases m' with
      | mk hh nn =>
        simp only at h1 h2
        rw [h1, h2]
    rw [hm']
    exact raw_single (norm_name_idem hop) hr

/-- Claim C5, witness: the amended raw-tracking statement evaluated on the
sequence `set("A","1"); set("a","2")`. -/
theorem c5_raw_tracking_witness :
    ∃ w, (⟨[("a", "2")], [("a", "a")]⟩ : HeadersPolyfill).headers = [("a", w)] ∧
      (⟨[("a", "2")], [("a", "a")]⟩ : HeadersPolyfill).names = [("a", "a")] ∧
      HeadersPolyfill.raw ⟨[("a", "2")], [("a", "a")]⟩ =
        .ok [("a", if w = "" then JsVal.jsNull else JsVal.str w)] :=
  c5_raw_tracking.1 [.setOp "A" "1"] (.setOp "a" "2") "a" ⟨[("a", "2")], [("a", "a")]⟩
    (by decide) (by decide) (by decide)

/-! ### Claim C9: delete symmetry -/

theorem mapM_ok_mem {α β : Type} {f : α → Except HeaderError β} :
    ∀ {l : List α} {r : List β}, l.mapM f = .ok r → ∀ q ∈ r, ∃ a ∈ l, f a = .ok q := by
  intro l
  induction l with
  | nil =>
    intro r h q hq
    rw [List.mapM_nil] at h
    cases h
    simp at hq
  | cons a t ih =>
    intro r h q hq
    rw [List.mapM_cons] at h
    cases hfa : f a with
    | error e =>
      rw [hfa] at h
      exact Except.noConfusion h
    | ok b =>
      rw [hfa] at h
      cases hmt : t.mapM f with
      | error e =>
        rw [hmt] at h
        exact Except.noConfusion h
      | ok bs =>
        rw [hmt] at h
        have hr : r = b :: bs := by
          have : (Except.ok (b :: bs) : Except HeaderError (List β)) = .ok r := h
          cases this
          rfl
        subst hr
        rcases List.mem_cons.mp hq with rfl | hq'
        · exact ⟨a, List.mem_cons_self _ _, hfa⟩
        · obtain ⟨a', ha', hfa'⟩ := ih hmt q hq'
          exact ⟨a', List.mem_cons_of_mem a ha', hfa'⟩

theorem fold_raw_keys (g : String → String) :
    ∀ (es : List (String × JsVal)) (acc : List (String × JsVal))
      (p : String × JsVal),
    p ∈ es.foldl (fun acc q => HeadersPolyfill.rawSet acc (g q.1) q.2) acc →
    p.1 ∈ keysA acc ∨ ∃ q ∈ es, p.1 = g q.1 := by
  intro es
  induction es with
  | nil =>
    intro acc p hp
    rw [List.foldl_nil] at hp
    exact Or.inl (List.mem_map.mpr ⟨p, hp, rfl⟩)
  | cons q t ih =>
    intro acc p hp
    rw [List.foldl_cons] at hp
    rcases ih _ p hp with h1 | ⟨q', hq', h2⟩
    · unfold HeadersPolyfill.rawSet at h1
      by_cases hg : g q.1 = "__proto__"
      · rw [if_pos hg] at h1
        exact Or.inl h1
      · rw [if_neg hg] at h1
        rcases mem_keysA_setA.mp h1 with h2 | h2
        · exact Or.inl h2
        · exact Or.inr ⟨q, List.mem_cons_self _ _, h2⟩
    · exact Or.inr ⟨q', List.mem_cons_of_mem q hq', h2⟩

theorem raw_mem_key {m : HeadersPolyfill} (hwf : WF m) {l : List (String × JsVal)}
    (h : m.raw = .ok l) {p : String × JsVal} (hp : p ∈ l) :
    ∃ k', k' ∈ keysA m.headers ∧ normalizeHeaderName p.1 = .ok k' := by
  unfold HeadersPolyfill.raw at h
  cases he : m.entriesList with
  | error e =>
    rw [he] at h
    exact Except.noConfusion h
  | ok es =>
    rw [he] at h
    have hl : l = es.foldl
        (fun acc q => HeadersPolyfill.rawSet acc
          (HeadersPolyfill.jsKey (lookupA m.names q.1)) q.2) [] := by
      have : (Except.ok (es.foldl _ []) : Except HeaderError _) = .ok l := h
      cases this
      rfl
    subst hl
    rcases fold_raw_keys (fun n => HeadersPolyfill.jsKey (lookupA m.names n))
        es [] p hp with h1 | ⟨q, hq, h2⟩
    · simp [keysA] at h1
    · unfold HeadersPolyfill.entriesList at he
      obtain ⟨a, ha, hfa⟩ := mapM_ok_mem he q hq
      have hq1 : q.1 = a := by
        cases hg : m.get a with
        | error e =>
          rw [hg] at hfa
          exact Except.noConfusion hfa
        | ok v =>
          rw [hg] at hfa
          have : (Except.ok (a, v) : Except HeaderError (String × JsVal)) = .ok q := hfa
          cases this
          rfl
      have ham : a ∈ keysA m.headers := mem_objectKeys.mp ha
      have hnm : a ∈ keysA m.names := ((hwf.keys_eq a).mp ham).1
      obtain ⟨r, hr, hrn⟩ := hwf.names_lookup hnm
      refine ⟨a, ham, ?_⟩
      rw [h2, hq1, hr]
      exact hrn

/-- Claim C9: `delete` is a no-op (state unchanged) when `has` is false;
otherwise it removes both the normalized-value entry and the raw-name entry
for the normalized key; consequently after `set(n, v); delete(n)` on a
reachable state, `has(n)` is false and `raw()` contains no entry whose key
normalizes to `n`'s key (no spelling of `n` remains). -/
theorem c9_delete_symmetry :
    (∀ (m : HeadersPolyfill) (name : String),
      m.has name = .ok false → m.delete name = (.ok (), m)) ∧
    (∀ (m m' : HeadersPolyfill) (name k : String),
      normalizeHeaderName name = .ok k → m.has name = .ok true →
      m.delete name = (.ok (), m') →
      lookupA m'.headers k = none ∧ lookupA m'.names k = none) ∧
    (∀ (m m₁ m₂ : HeadersPolyfill) (name value k : String),
      Reachable m → normalizeHeaderName name = .ok k →
      m.set name value = (.ok (), m₁) → m₁.delete name = (.ok (), m₂) →
      m₂.has name = .ok false ∧
      (∀ l, m₂.raw = .ok l → ∀ p ∈ l, ¬normalizeHeaderName p.1 = .ok k)) := by
  refine ⟨?_, ?_, ?_⟩
  · intro m name h
    exact HeadersPolyfill.delete_ok_of_has_false h
  · intro m m' name k hk hh hd
    rw [HeadersPolyfill.delete_ok_of_has_true hh hk] at hd
    have hm' : m' = ⟨deleteA m.headers k, deleteA m.names k⟩ :=
      (((Prod.mk.injEq _ _ _ _).mp hd).2).symm
    rw [hm']
    exact ⟨lookupA_deleteA_self _ _, lookupA_deleteA_self _ _⟩
  · intro m m₁ m₂ name value k hre hk hset hdel
    have hwf1 : WF m₁ := wf_set (reachable_wf hre) hset
    have hwf2 : WF m₂ := wf_delete hwf1 hdel
    have hnone : lookupA m₂.headers k = none := by
      rcases HeadersPolyfill.delete_ok_elim hdel with ⟨hh, rfl⟩ | ⟨k2, hk2, hh, rfl⟩
      · obtain ⟨k3, hk3, hs3⟩ := HeadersPolyfill.has_ok_elim hh
        rw [hk] at hk3
        cases hk3
        cases hl : lookupA m₂.headers k with
        | none => rfl
        | some v =>
          rw [hl] at hs3
          exact Bool.noConfusion hs3
      · rw [hk] at hk2
        cases hk2
        exact lookupA_deleteA_self _ _
    constructor
    · rw [HeadersPolyfill.has_ok_of_norm hk, hnone]
      rfl
    · intro l hraw p hpl hcon
      obtain ⟨k', hk'm, hk'n⟩ := raw_mem_key hwf2 hraw hpl
      rw [hcon] at hk'n
      cases hk'n
      exact (lookupA_eq_none_iff.mp hnone) hk'm

/-- Claim C9, witness: the full statement evaluated on concrete states — a
no-op delete on the empty map, a real delete on `x ↦ a`, and the
`set("X","a"); delete("X")` round trip from a fresh map. -/
theorem c9_delete_symmetry_witness :
    emptyHeaders.delete "zz" = (.ok (), emptyHeaders) ∧
    (lookupA (⟨[], []⟩ : HeadersPolyfill).headers "x" = none ∧
      lookupA (⟨[], []⟩ : HeadersPolyfill).names "x" = none) ∧
    (HeadersPolyfill.has (⟨[], []⟩ : HeadersPolyfill) "X" = .ok false ∧
      (∀ l, HeadersPolyfill.raw (⟨[], []⟩ : HeadersPolyfill) = .ok l →
        ∀ p ∈ l, ¬normalizeHeaderName p.1 = .ok "x")) :=
  ⟨c9_delete_symmetry.1 emptyHeaders "zz" (by decide),
   c9_delete_symmetry.2.1 ⟨[("x", "a")], [("x", "X")]⟩ ⟨[], []⟩ "x" "x"
     (by decide) (by decide) (by decide),
   c9_delete_symmetry.2.2 emptyHeaders ⟨[("x", "a")], [("x", "X")]⟩ ⟨[], []⟩
     "X" "a" "x" (Reachable.constructed .absent emptyHeaders rfl)
     (by decide) (by decide) (by decide)⟩
